/-
Verification of the kanso object-store client, its in-memory backend, the GCS
status handling, and the lease cookbook, against the repository's behavioural
specification.  The Rust sources are shallowly embedded: stateful methods become
functions threading an explicit `InMemoryStore`, byte buffers become `List Nat`,
`u64` counters become `Nat`, and fallible paths return `Except`.
-/
import Mathlib

deriving instance DecidableEq for Except

namespace Kanso

/-! ### Value types (src/kanso-client/src/lib.rs)

`Bytes` stands for the payload buffer, `Version` wraps the backend-minted
opaque string, `Metadata` is the user header map (a `HashMap<String, String>`
in the source, embedded as an association list whose insert replaces an
existing key in place). -/

abbrev Bytes := List Nat

structure Version where
  val : String
deriving DecidableEq

inductive Condition where
  | IfAbsent : Condition
  | IfVersionMatches : Version → Condition
deriving DecidableEq

inductive Error where
  | ConditionFailed : Condition → Error
  | NotFound : Error
  | Other : String → Error
deriving DecidableEq

abbrev Metadata := List (String × String)

/-- `Metadata::new` — the empty header map. -/
def metaNew : Metadata := []

/-- `HashMap::insert` on the metadata map: replace the binding of `k` if
present, otherwise append it. -/
def metaInsert (m : Metadata) (k v : String) : Metadata :=
  match m with
  | [] => [(k, v)]
  | (k', v') :: rest =>
    if k' = k then (k, v) :: rest else (k', v') :: metaInsert rest k v

/-- `HashMap::get` on the metadata map. -/
def metaGet (m : Metadata) (k : String) : Option String :=
  match m with
  | [] => none
  | (k', v') :: rest => if k' = k then some v' else metaGet rest k

/-! ### Stored objects and the in-memory store (src/backends/kanso-inmemory/src/lib.rs)

The store's `HashMap<String, StoredObject>` is embedded as an association list
with the same replace-on-insert discipline; the `u64` version counter is a
`Nat`.  Locking disappears in the sequential embedding: the Rust code holds the
single writer lock across condition check and mutation, so each method is one
atomic state transformer. -/

structure StoredObject where
  value : Bytes
  version : Version
  metadata : Metadata
deriving DecidableEq

structure InMemoryStore where
  data : List (String × StoredObject)
  counter : Nat
deriving DecidableEq

/-- `HashMap::get` on the store map. -/
def assocGet (l : List (String × StoredObject)) (k : String) : Option StoredObject :=
  match l with
  | [] => none
  | (k', v') :: rest => if k' = k then some v' else assocGet rest k

/-- `HashMap::insert` on the store map. -/
def assocInsert (l : List (String × StoredObject)) (k : String) (v : StoredObject) :
    List (String × StoredObject) :=
  match l with
  | [] => [(k, v)]
  | (k', v') :: rest =>
    if k' = k then (k, v) :: rest else (k', v') :: assocInsert rest k v

/-- `InMemoryStore::new` — empty map, counter 0. -/
def InMemoryStore.new : InMemoryStore := { data := [], counter := 0 }

/-- `InMemoryStore::next_version` — increment the counter and stringify it. -/
def InMemoryStore.next_version (s : InMemoryStore) : Version × InMemoryStore :=
  let c := s.counter + 1
  (⟨toString c⟩, { s with counter := c })

/-! Request and response records.  The lease crate targets a client revision
whose request constructors take the path as a plain string, so `key` is
embedded as `String` (path well-formedness is orthogonal to every claim). -/

structure GetResponse where
  value : Bytes
  version : Version
  metadata : Metadata
deriving DecidableEq

structure PutRequest where
  key : String
  value : Bytes
  condition : Option Condition
  metadata : Option Metadata
deriving DecidableEq

structure PutResponse where
  version : Version
deriving DecidableEq

structure PatchRequest where
  key : String
  metadata : Metadata
  condition : Option Condition
deriving DecidableEq

structure PatchResponse where
  version : Version
deriving DecidableEq

/-- `InMemoryStore::get`. -/
def InMemoryStore.get (s : InMemoryStore) (key : String) : Option GetResponse :=
  (assocGet s.data key).map fun obj => ⟨obj.value, obj.version, obj.metadata⟩

/-- The condition check at the head of `InMemoryStore::put` (lines 62-86). -/
def putCheck (s : InMemoryStore) (req : PutRequest) : Except Error Unit :=
  match req.condition with
  | none => .ok ()
  | some c =>
    match c with
    | .IfAbsent =>
      if (assocGet s.data req.key).isSome then .error (.ConditionFailed c) else .ok ()
    | .IfVersionMatches expected =>
      match assocGet s.data req.key with
      | some obj => if obj.version = expected then .ok () else .error (.ConditionFailed c)
      | none => .error (.ConditionFailed c)

/-- `InMemoryStore::put`: check the condition, then mint a version and insert
the new object.  The returned store is the post-state; an early error returns
the pre-state unchanged, as the Rust early `return` does. -/
def InMemoryStore.put (s : InMemoryStore) (req : PutRequest) :
    Except Error PutResponse × InMemoryStore :=
  match putCheck s req with
  | .error e => (.error e, s)
  | .ok () =>
    let (version, s') := s.next_version
    let metadata := req.metadata.getD metaNew
    (.ok ⟨version⟩,
      { s' with data := assocInsert s'.data req.key ⟨req.value, version, metadata⟩ })

/-- The condition check inside `InMemoryStore::patch` (lines 112-130), run
once the object is known to exist: `IfAbsent` always fails on patch,
`IfVersionMatches` compares the current version. -/
def patchCheck (obj : StoredObject) (condition : Option Condition) : Except Error Unit :=
  match condition with
  | none => .ok ()
  | some c =>
    match c with
    | .IfAbsent => .error (.ConditionFailed c)
    | .IfVersionMatches expected =>
      if obj.version = expected then .ok () else .error (.ConditionFailed c)

/-- `InMemoryStore::patch`: look up the existing object (cloning its bytes)
and fail with `NotFound` when absent; then check the condition; then mint a
version and reinsert with the kept bytes and the request's metadata. -/
def InMemoryStore.patch (s : InMemoryStore) (req : PatchRequest) :
    Except Error PatchResponse × InMemoryStore :=
  match assocGet s.data req.key with
  | none => (.error .NotFound, s)
  | some obj =>
    match patchCheck obj req.condition with
    | .error e => (.error e, s)
    | .ok () =>
      let (version, s') := s.next_version
      (.ok ⟨version⟩,
        { s' with data := assocInsert s'.data req.key ⟨obj.value, version, req.metadata⟩ })

/-! ### GCS backend status dispatch (src/backends/kanso-gcs/src/lib.rs)

Only the response-status handling of `GcsStore::put` (lines 165-182) and
`GcsStore::patch` (lines 219-237) is claim-relevant; the HTTP transport is an
external collaborator.  `parsedGeneration` stands for the string extracted
from the 200 JSON body when present.  The outer `Option` models the Rust
`Option::unwrap` in the 412 arm: `none` is the panic reached when the request
carried no condition. -/

def gcsPutHandleStatus (status : Nat) (condition : Option Condition)
    (parsedGeneration : Option String) : Option (Except Error PutResponse) :=
  if status = 200 then
    match parsedGeneration with
    | some g => some (.ok ⟨⟨g⟩⟩)
    | none => some (.error (.Other "missing generation"))
  else if status = 412 then
    match condition with
    | some c => some (.error (.ConditionFailed c))
    | none => none
  else
    some (.error (.Other ("GCS put error: status " ++ toString status)))

def gcsPatchHandleStatus (status : Nat) (condition : Option Condition)
    (parsedGeneration : Option String) : Option (Except Error PatchResponse) :=
  if status = 200 then
    match parsedGeneration with
    | some g => some (.ok ⟨⟨g⟩⟩)
    | none => some (.error (.Other "missing generation"))
  else if status = 404 then
    some (.error .NotFound)
  else if status = 412 then
    match condition with
    | some c => some (.error (.ConditionFailed c))
    | none => none
  else
    some (.error (.Other ("GCS patch error: status " ++ toString status)))

/-! ### Lease cookbook (src/cookbooks/kanso-lease/src/lib.rs)

The wall clock `current_timestamp()` is passed explicitly as `now` (Unix
seconds).  The payload type is abstract: `enc` embeds `serde_json::to_vec`
and `dec` embeds `serde_json::from_slice`, both fallible.

Storage operations of a lease call run against explicit store snapshots.
`acquire` performs a `get` and then one conditional write; other clients may
write between those suspension points, so the model takes the snapshot seen
by the `get` (`sGet`) and the snapshot the conditional write executes against
(`sPut`).  The sequential (interference-free) case is `sGet = sPut`. -/

def OWNER_HEADER : String := "x-kanso-lease-owner"

def EXPIRY_HEADER : String := "x-kanso-lease-expiry"

inductive LeaseError where
  | LeaseHeld : LeaseError
  | Conflict : LeaseError
  | NotFound : LeaseError
  | Storage : Error → LeaseError
  | Serialization : String → LeaseError
  | InvalidMetadata : String → LeaseError
deriving DecidableEq

/-- The fields of `Lease<T>` that the protocol tracks (the client handle and
the phantom are not state). -/
structure LeaseState where
  path : String
  owner : String
  ttl : Nat
  version : Version
deriving DecidableEq

/-- Embeds the `s.parse::<u64>().ok()` of `get_expiry`: a non-empty
all-digit string read as a decimal number (the only shape the lease layer
itself writes); the optional leading sign Rust also accepts and `u64`
overflow are outside the model. -/
def parseNat (s : String) : Option Nat :=
  if s.data ≠ [] ∧ s.data.all Char.isDigit then
    some (s.data.foldl (fun n c => n * 10 + (c.toNat - '0'.toNat)) 0)
  else
    none

/-- `get_expiry`: read the expiry header and parse it as an integer. -/
def get_expiry (m : Metadata) : Except LeaseError Nat :=
  match (metaGet m EXPIRY_HEADER).bind parseNat with
  | some e => .ok e
  | none => .error (.InvalidMetadata "missing or invalid expiry")

/-- `get_owner`: read the owner header. -/
def get_owner (m : Metadata) : Except LeaseError String :=
  match metaGet m OWNER_HEADER with
  | some o => .ok o
  | none => .error (.InvalidMetadata "missing owner")

/-- `is_lease_alive expiry now` — the Rust `expiry > current_timestamp()`. -/
def is_lease_alive (expiry : Nat) (now : Nat) : Bool :=
  expiry > now

/-- The `{owner, expiry}` metadata the lease writes: `Metadata::new()` then
`insert(OWNER_HEADER, owner)` then `insert(EXPIRY_HEADER, expiry.to_string())`. -/
def leaseMeta (owner : String) (expiry : Nat) : Metadata :=
  metaInsert (metaInsert metaNew OWNER_HEADER owner) EXPIRY_HEADER (toString expiry)

/-- `AcquireRequest::execute`.

Modelled from the spec: the takeover branch of the source calls
`CopyRequest::new(&self.path, metadata).if_version_matches(resp.version)`, an
operation declared in `kanso-client` whose definition is not under src/.  The
spec (§4.2.2 step 3) describes this step as a `put` of **the same bytes back**
with the new metadata under condition `IfVersionMatches(resp.version)`, and the
model embeds it as exactly that conditional `put` of `resp.value`.

Every other step follows the source: `get`; on absence serialize `init` and
`put` it with `IfAbsent` and `{owner, expiry = now+ttl}`, the `?` operator
wrapping any storage error into `LeaseError::Storage`; on presence parse the
lease headers, fail `LeaseHeld` when the lease is alive under another owner,
otherwise deserialize the existing bytes, perform the conditional write with
any failure mapped to `Conflict`, and return the existing value. -/
def acquireExecute {T : Type} (dec : Bytes → Except String T)
    (enc : T → Except String Bytes) (now : Nat) (path owner : String) (ttl : Nat)
    (init : T) (sGet sPut : InMemoryStore) :
    Except LeaseError (LeaseState × T) × InMemoryStore :=
  match InMemoryStore.get sGet path with
  | none =>
    match enc init with
    | .error msg => (.error (.Serialization msg), sPut)
    | .ok value_bytes =>
      let metadata := leaseMeta owner (now + ttl)
      match InMemoryStore.put sPut ⟨path, value_bytes, some .IfAbsent, some metadata⟩ with
      | (.error e, s₁) => (.error (.Storage e), s₁)
      | (.ok response, s₁) =>
        (.ok (⟨path, owner, ttl, response.version⟩, init), s₁)
  | some resp =>
    match get_expiry resp.metadata with
    | .error e => (.error e, sPut)
    | .ok expiry =>
      match get_owner resp.metadata with
      | .error e => (.error e, sPut)
      | .ok current_owner =>
        if is_lease_alive expiry now ∧ current_owner ≠ owner then
          (.error .LeaseHeld, sPut)
        else
          match dec resp.value with
          | .error msg => (.error (.Serialization msg), sPut)
          | .ok value =>
            let metadata := leaseMeta owner (now + ttl)
            match InMemoryStore.put sPut
                ⟨path, resp.value, some (.IfVersionMatches resp.version), some metadata⟩ with
            | (.error _, s₁) => (.error .Conflict, s₁)
            | (.ok response, s₁) =>
              (.ok (⟨path, owner, ttl, response.version⟩, value), s₁)

/-- The metadata `release` writes: `{owner = "", expiry = "0"}`. -/
def releasedMeta : Metadata :=
  metaInsert (metaInsert metaNew OWNER_HEADER "") EXPIRY_HEADER "0"

/-- `Lease::release`: `get` the current object (`NotFound` when absent), then
`put` the same bytes back with metadata `{owner = "", expiry = "0"}` under
`IfVersionMatches` of the version just read, mapping a failed write to
`Conflict`.  The two storage calls run sequentially against one store (`get`
does not mutate). -/
def releaseExecute (path : String) (s : InMemoryStore) :
    Except LeaseError Unit × InMemoryStore :=
  match InMemoryStore.get s path with
  | none => (.error .NotFound, s)
  | some resp =>
    match InMemoryStore.put s
        ⟨path, resp.value, some (.IfVersionMatches resp.version), some releasedMeta⟩ with
    | (.error _, s₁) => (.error .Conflict, s₁)
    | (.ok _, s₁) => (.ok (), s₁)

/-- Every stored object's version is the stringification of some counter value
not exceeding the current one.  Holds for every store reachable from
`InMemoryStore.new`. -/
def storeInv (s : InMemoryStore) : Prop :=
  ∀ p ∈ s.data, ∃ n, n ≤ s.counter ∧ p.2.version = ⟨toString n⟩

/-- Executable form of `storeInv`, used to discharge it on concrete stores. -/
def storeInvB (s : InMemoryStore) : Bool :=
  s.data.all fun p => (List.range (s.counter + 1)).any fun n => p.2.version == ⟨toString n⟩

inductive WriteOp where
  | putOp : PutRequest → WriteOp
  | patchOp : PatchRequest → WriteOp
deriving DecidableEq

def WriteOp.key : WriteOp → String
  | .putOp req => req.key
  | .patchOp req => req.key

/-- Run one write, forgetting which response record carried the version. -/
def InMemoryStore.exec (s : InMemoryStore) : WriteOp → Except Error Version × InMemoryStore
  | .putOp req =>
    match s.put req with
    | (.error e, s') => (.error e, s')
    | (.ok r, s') => (.ok r.version, s')
  | .patchOp req =>
    match s.patch req with
    | (.error e, s') => (.error e, s')
    | (.ok r, s') => (.ok r.version, s')

def runFrom (s : InMemoryStore) : List WriteOp → InMemoryStore
  | [] => s
  | op :: rest => runFrom (s.exec op).2 rest

def mintedFrom (s : InMemoryStore) : List WriteOp → String → List Version
  | [], _ => []
  | op :: rest, key =>
    let step := s.exec op
    let tail := mintedFrom step.2 rest key
    match step.1 with
    | .ok v => if op.key = key then v :: tail else tail
    | .error _ => tail

/-- A concrete store used by the witnesses: one object at key "k" with
version "1" (minted by counter value 1) and one user header. -/
def witnessStore : InMemoryStore :=
  ⟨[("k", ⟨[7], ⟨"1"⟩, [("a", "b")]⟩)], 1⟩

/-- A concrete store holding a lease: object at "k", version "1", owner
"alice", expiry 10. -/
def leaseStore : InMemoryStore :=
  ⟨[("k", ⟨[7], ⟨"1"⟩, [(OWNER_HEADER, "alice"), (EXPIRY_HEADER, "10")]⟩)], 1⟩

/-- Concrete payload codec for the lease witnesses: a `Nat` stored as a
single byte. -/
def witDec : Bytes → Except String Nat := fun b =>
  match b with
  | [n] => .ok n
  | _ => .error "bad bytes"

def witEnc : Nat → Except String Bytes := fun n => .ok [n]

/-- The store left behind by a successful release on `leaseStore`. -/
def releasedStore : InMemoryStore :=
  ⟨[("k", ⟨[7], ⟨"2"⟩, releasedMeta⟩)], 2⟩


/-! ### Injectivity of the decimal rendering used by `next_version`

`InMemoryStore::next_version` mints `counter.to_string()`; distinctness of
minted versions reduces to injectivity of `Nat.repr`, proved here through a
fuel-free counterpart of `Nat.toDigitsCore`. -/

/-- Decimal digit characters of `n`, most significant first. -/
def natChars (n : Nat) : List Char :=
  if _h : n < 10 then [Nat.digitChar n]
  else natChars (n / 10) ++ [Nat.digitChar (n % 10)]
termination_by n
decreasing_by
  exact Nat.div_lt_self (by omega) (by omega)

theorem natChars_lt {n : Nat} (h : n < 10) : natChars n = [Nat.digitChar n] := by
  rw [natChars]
  simp [h]

theorem natChars_ge {n : Nat} (h : ¬ n < 10) :
    natChars n = natChars (n / 10) ++ [Nat.digitChar (n % 10)] := by
  rw [natChars]
  simp [h]

theorem natChars_ne_nil (n : Nat) : natChars n ≠ [] := by
  by_cases h : n < 10
  · rw [natChars_lt h]; simp
  · rw [natChars_ge h]; simp

theorem toDigitsCore_eq_natChars (fuel : Nat) :
    ∀ n ds, n < fuel → Nat.toDigitsCore 10 fuel n ds = natChars n ++ ds := by
  induction fuel with
  | zero => intro n ds h; omega
  | succ f ih =>
    intro n ds h
    simp only [Nat.toDigitsCore]
    by_cases h0 : n / 10 = 0
    · have hn : n < 10 := by omega
      have hmod : n % 10 = n := by omega
      rw [if_pos h0, natChars_lt hn, hmod]
      simp
    · have hn : ¬ n < 10 := by omega
      have hlt : n / 10 < f := by
        have := Nat.div_lt_self (show 0 < n by omega) (show 1 < 10 by omega)
        omega
      rw [if_neg h0, ih (n / 10) (Nat.digitChar (n % 10) :: ds) hlt, natChars_ge hn]
      simp

theorem toDigits_eq_natChars (n : Nat) : Nat.toDigits 10 n = natChars n := by
  rw [Nat.toDigits, toDigitsCore_eq_natChars (n + 1) n [] (Nat.lt_succ_self n)]
  simp

theorem digitChar_inj10 : ∀ a < 10, ∀ b < 10, Nat.digitChar a = Nat.digitChar b → a = b := by
  decide

theorem natChars_inj (m : Nat) : ∀ n, natChars m = natChars n → m = n := by
  induction m using Nat.strong_induction_on with
  | _ m ih =>
    intro n h
    by_cases hm : m < 10 <;> by_cases hn : n < 10
    · rw [natChars_lt hm, natChars_lt hn] at h
      simp at h
      exact digitChar_inj10 m hm n hn h
    · exfalso
      rw [natChars_lt hm, natChars_ge hn] at h
      have hl := congrArg List.length h
      rw [List.length_append] at hl
      simp only [List.length_singleton] at hl
      exact natChars_ne_nil (n / 10) (List.length_eq_zero.mp (by omega))
    · exfalso
      rw [natChars_ge hm, natChars_lt hn] at h
      have hl := congrArg List.length h
      rw [List.length_append] at hl
      simp only [List.length_singleton] at hl
      exact natChars_ne_nil (m / 10) (List.length_eq_zero.mp (by omega))
    · rw [natChars_ge hm, natChars_ge hn] at h
      have hparts := List.append_inj' h (by simp)
      have hdiv : m / 10 = n / 10 :=
        ih (m / 10) (Nat.div_lt_self (by omega) (by omega)) (n / 10) hparts.1
      have hchar : Nat.digitChar (m % 10) = Nat.digitChar (n % 10) := by
        have := hparts.2
        simpa using this
      have hmod : m % 10 = n % 10 :=
        digitChar_inj10 (m % 10) (by omega) (n % 10) (by omega) hchar
      omega

theorem natRepr_inj {m n : Nat} (h : Nat.repr m = Nat.repr n) : m = n := by
  have hd : Nat.toDigits 10 m = Nat.toDigits 10 n := by
    have h' : (Nat.toDigits 10 m).asString = (Nat.toDigits 10 n).asString := h
    simpa [List.asString] using congrArg String.data h'
  rw [toDigits_eq_natChars, toDigits_eq_natChars] at hd
  exact natChars_inj m n hd

theorem natToString_inj {m n : Nat} (h : (toString m : String) = toString n) : m = n :=
  natRepr_inj h

/-! ### Map lemmas -/

theorem assocGet_insert_self (l : List (String × StoredObject)) (k : String) (v : StoredObject) :
    assocGet (assocInsert l k v) k = some v := by
  induction l with
  | nil => simp [assocInsert, assocGet]
  | cons p rest ih =>
    rw [assocInsert]
    by_cases h : p.1 = k
    · simp [h, assocGet]
    · simp only [h, if_false]
      rw [assocGet]
      simp [h, ih]

theorem assocGet_insert_ne (l : List (String × StoredObject)) (k k' : String)
    (v : StoredObject) (h : k' ≠ k) :
    assocGet (assocInsert l k v) k' = assocGet l k' := by
  have hk : ¬ (k = k') := fun hh => h hh.symm
  induction l with
  | nil => simp [assocInsert, assocGet, hk]
  | cons p rest ih =>
    rw [assocInsert]
    by_cases hp : p.1 = k
    · have hp' : ¬ (p.1 = k') := by rw [hp]; exact hk
      rw [if_pos hp, assocGet, assocGet, if_neg hk, if_neg hp']
    · rw [if_neg hp, assocGet, assocGet, ih]

theorem mem_assocInsert (l : List (String × StoredObject)) (k : String) (v : StoredObject)
    (p : String × StoredObject) (hp : p ∈ assocInsert l k v) : p = (k, v) ∨ p ∈ l := by
  induction l with
  | nil => simp [assocInsert] at hp; simp [hp]
  | cons q rest ih =>
    rw [assocInsert] at hp
    by_cases hq : q.1 = k
    · rw [if_pos hq] at hp
      rcases List.mem_cons.mp hp with h | h
      · exact Or.inl h
      · exact Or.inr (List.mem_cons_of_mem q h)
    · rw [if_neg hq] at hp
      rcases List.mem_cons.mp hp with h | h
      · exact Or.inr (h ▸ List.mem_cons_self q rest)
      · rcases ih h with h' | h'
        · exact Or.inl h'
        · exact Or.inr (List.mem_cons_of_mem q h')

theorem assocGet_mem {l : List (String × StoredObject)} {k : String} {o : StoredObject}
    (h : assocGet l k = some o) : (k, o) ∈ l := by
  induction l with
  | nil => simp [assocGet] at h
  | cons p rest ih =>
    obtain ⟨p1, p2⟩ := p
    rw [assocGet] at h
    by_cases hp : p1 = k
    · simp only [hp, if_pos rfl] at h
      have hv : p2 = o := Option.some.inj h
      rw [← hp, ← hv]
      exact List.mem_cons_self (p1, p2) rest
    · rw [if_neg hp] at h
      exact List.mem_cons_of_mem (p1, p2) (ih h)

/-! ### Store invariant: every stored version was minted by the counter -/

theorem storeInvB_spec {s : InMemoryStore} (h : storeInvB s = true) : storeInv s := by
  intro p hp
  have := List.all_eq_true.mp h p hp
  rcases List.any_eq_true.mp this with ⟨n, hn, hv⟩
  exact ⟨n, Nat.lt_succ_iff.mp (List.mem_range.mp hn), eq_of_beq hv⟩

/-- Shape analysis of `put`: it either fails leaving the store untouched, or
returns the freshly minted version `toString (counter+1)` and the store with
the new object inserted. -/
theorem put_cases (s : InMemoryStore) (req : PutRequest) :
    (∃ e, s.put req = (.error e, s)) ∨
    s.put req = (.ok ⟨⟨toString (s.counter + 1)⟩⟩,
      ⟨assocInsert s.data req.key
        ⟨req.value, ⟨toString (s.counter + 1)⟩, req.metadata.getD metaNew⟩,
       s.counter + 1⟩) := by
  rw [InMemoryStore.put]
  cases h : putCheck s req with
  | error e => exact Or.inl ⟨e, rfl⟩
  | ok u => cases u; exact Or.inr rfl

/-- `patch` on an absent key. -/
theorem patch_absent (s : InMemoryStore) (req : PatchRequest)
    (h : assocGet s.data req.key = none) : s.patch req = (.error .NotFound, s) := by
  rw [InMemoryStore.patch, h]

/-- `patch` on a present key, as a function of the condition check. -/
theorem patch_present (s : InMemoryStore) (req : PatchRequest) (obj : StoredObject)
    (h : assocGet s.data req.key = some obj) :
    s.patch req =
      match patchCheck obj req.condition with
      | .error e => (.error e, s)
      | .ok _ =>
        (.ok ⟨⟨toString (s.counter + 1)⟩⟩,
          ⟨assocInsert s.data req.key ⟨obj.value, ⟨toString (s.counter + 1)⟩, req.metadata⟩,
           s.counter + 1⟩) := by
  simp only [InMemoryStore.patch, h]
  cases hc : patchCheck obj req.condition with
  | error e => rfl
  | ok u => cases u; rfl

/-- Shape analysis of `patch`: it either fails leaving the store untouched, or
keeps the existing bytes, takes the request's metadata wholesale, and mints
`toString (counter+1)`. -/
theorem patch_cases (s : InMemoryStore) (req : PatchRequest) :
    (∃ e, s.patch req = (.error e, s)) ∨
    ∃ obj, assocGet s.data req.key = some obj ∧
      s.patch req = (.ok ⟨⟨toString (s.counter + 1)⟩⟩,
        ⟨assocInsert s.data req.key ⟨obj.value, ⟨toString (s.counter + 1)⟩, req.metadata⟩,
         s.counter + 1⟩) := by
  cases hget : assocGet s.data req.key with
  | none => exact Or.inl ⟨.NotFound, patch_absent s req hget⟩
  | some obj =>
    have hp := patch_present s req obj hget
    cases hchk : patchCheck obj req.condition with
    | error e => rw [hchk] at hp; exact Or.inl ⟨e, hp⟩
    | ok u => cases u; rw [hchk] at hp; exact Or.inr ⟨obj, rfl, hp⟩

/-- `put` as a function of its condition check. -/
theorem put_eq (s : InMemoryStore) (req : PutRequest) :
    s.put req =
      match putCheck s req with
      | .error e => (.error e, s)
      | .ok _ =>
        (.ok ⟨⟨toString (s.counter + 1)⟩⟩,
          ⟨assocInsert s.data req.key
            ⟨req.value, ⟨toString (s.counter + 1)⟩, req.metadata.getD metaNew⟩,
           s.counter + 1⟩) := by
  rw [InMemoryStore.put]
  cases hc : putCheck s req with
  | error e => rfl
  | ok u => cases u; rfl

/-! ### Write traces

`WriteOp` is a state-changing request against the store; `runFrom` replays a
list of them (a failed request leaves the state unchanged, as the methods
do); `mintedFrom` collects the versions returned by the accepted writes at a
given path, in order. -/

/-- Shape analysis of one `exec` step. -/
theorem exec_cases (s : InMemoryStore) (op : WriteOp) :
    (∃ e, s.exec op = (.error e, s)) ∨
    ∃ bytes md, s.exec op = (.ok ⟨toString (s.counter + 1)⟩,
      ⟨assocInsert s.data op.key ⟨bytes, ⟨toString (s.counter + 1)⟩, md⟩, s.counter + 1⟩) := by
  cases op with
  | putOp req =>
    rcases put_cases s req with ⟨e, he⟩ | hok
    · exact Or.inl ⟨e, by simp [InMemoryStore.exec, he]⟩
    · exact Or.inr ⟨req.value, req.metadata.getD metaNew,
        by simp [InMemoryStore.exec, hok, WriteOp.key]⟩
  | patchOp req =>
    rcases patch_cases s req with ⟨e, he⟩ | ⟨obj, _, hok⟩
    · exact Or.inl ⟨e, by simp [InMemoryStore.exec, he]⟩
    · exact Or.inr ⟨obj.value, req.metadata, by simp [InMemoryStore.exec, hok, WriteOp.key]⟩

theorem exec_counter_le (s : InMemoryStore) (op : WriteOp) :
    s.counter ≤ (s.exec op).2.counter := by
  rcases exec_cases s op with ⟨e, he⟩ | ⟨bytes, md, hok⟩
  · rw [he]
  · rw [hok]; exact Nat.le_succ _

theorem runFrom_counter_le (ops : List WriteOp) :
    ∀ s : InMemoryStore, s.counter ≤ (runFrom s ops).counter := by
  induction ops with
  | nil => intro s; exact Nat.le_refl _
  | cons op rest ih =>
    intro s
    rw [runFrom]
    exact Nat.le_trans (exec_counter_le s op) (ih (s.exec op).2)

/-- An accepted write mints exactly `toString (counter + 1)`. -/
theorem exec_ok_version (s : InMemoryStore) (op : WriteOp) (v : Version)
    (h : (s.exec op).1 = .ok v) : v = ⟨toString (s.counter + 1)⟩ := by
  rcases exec_cases s op with ⟨e, he⟩ | ⟨bytes, md, hok⟩
  · rw [he] at h; exact absurd h (by simp)
  · rw [hok] at h
    exact (Except.ok.inj h).symm

theorem storeInv_exec (s : InMemoryStore) (op : WriteOp) (hinv : storeInv s) :
    storeInv (s.exec op).2 := by
  rcases exec_cases s op with ⟨e, he⟩ | ⟨bytes, md, hok⟩
  · rw [he]; exact hinv
  · rw [hok]
    intro p hp
    rcases mem_assocInsert _ _ _ p hp with hnew | hold
    · exact ⟨s.counter + 1, Nat.le_refl _, by rw [hnew]⟩
    · rcases hinv p hold with ⟨n, hn, hv⟩
      exact ⟨n, Nat.le_trans hn (Nat.le_succ _), hv⟩

theorem storeInv_new : storeInv InMemoryStore.new := by
  intro p hp
  simp [InMemoryStore.new] at hp

theorem storeInv_runFrom (ops : List WriteOp) :
    ∀ s : InMemoryStore, storeInv s → storeInv (runFrom s ops) := by
  induction ops with
  | nil => intro s h; exact h
  | cons op rest ih =>
    intro s h
    rw [runFrom]
    exact ih _ (storeInv_exec s op h)

/-- Every version minted along a trace is the stringification of a counter
value not exceeding the final counter. -/
theorem mintedFrom_bound (ops : List WriteOp) :
    ∀ (s : InMemoryStore) (key : String) (v : Version), v ∈ mintedFrom s ops key →
      ∃ n, n ≤ (runFrom s ops).counter ∧ v = ⟨toString n⟩ := by
  induction ops with
  | nil => intro s key v hv; simp [mintedFrom] at hv
  | cons op rest ih =>
    intro s key v hv
    rw [mintedFrom] at hv
    rw [runFrom]
    rcases exec_cases s op with ⟨e, he⟩ | ⟨bytes, md, hok⟩
    · simp only [he] at hv ⊢
      exact ih s key v hv
    · simp only [hok] at hv ⊢
      by_cases hk : op.key = key
      · rw [if_pos hk] at hv
        rcases List.mem_cons.mp hv with hv | hv
        · refine ⟨s.counter + 1, ?_, hv⟩
          exact runFrom_counter_le rest
            ⟨assocInsert s.data op.key ⟨bytes, ⟨toString (s.counter + 1)⟩, md⟩, s.counter + 1⟩
        · exact ih _ key v hv
      · rw [if_neg hk] at hv
        exact ih _ key v hv

/-- `putCheck` under `IfAbsent`. -/
theorem putCheck_ifAbsent (s : InMemoryStore) (req : PutRequest)
    (hc : req.condition = some .IfAbsent) :
    putCheck s req =
      if (assocGet s.data req.key).isSome then .error (.ConditionFailed .IfAbsent)
      else .ok () := by
  rw [putCheck, hc]

/-- `putCheck` under `IfVersionMatches` on a present key. -/
theorem putCheck_ifVersion_some (s : InMemoryStore) (req : PutRequest) (v : Version)
    (obj : StoredObject) (hc : req.condition = some (.IfVersionMatches v))
    (hobj : assocGet s.data req.key = some obj) :
    putCheck s req =
      if obj.version = v then .ok ()
      else .error (.ConditionFailed (.IfVersionMatches v)) := by
  rw [putCheck, hc, hobj]

/-- `putCheck` under `IfVersionMatches` on an absent key. -/
theorem putCheck_ifVersion_none (s : InMemoryStore) (req : PutRequest) (v : Version)
    (hc : req.condition = some (.IfVersionMatches v))
    (habs : assocGet s.data req.key = none) :
    putCheck s req = .error (.ConditionFailed (.IfVersionMatches v)) := by
  rw [putCheck, hc, habs]

/-! ### Claim theorems -/

/-- C2: `put` with `IfAbsent` succeeds exactly when no object exists at the
key (inserting the value with freshly minted version and the request's
metadata); when an object exists it fails with `ConditionFailed{IfAbsent}`
and the store is unchanged. -/
theorem put_ifAbsent_semantics (s : InMemoryStore) (req : PutRequest)
    (hc : req.condition = some .IfAbsent) :
    (assocGet s.data req.key = none →
      s.put req = (.ok ⟨⟨toString (s.counter + 1)⟩⟩,
        ⟨assocInsert s.data req.key
          ⟨req.value, ⟨toString (s.counter + 1)⟩, req.metadata.getD metaNew⟩,
         s.counter + 1⟩)) ∧
    (∀ obj, assocGet s.data req.key = some obj →
      s.put req = (.error (.ConditionFailed .IfAbsent), s)) := by
  constructor
  · intro habs
    rw [put_eq, putCheck_ifAbsent s req hc, habs]
    rfl
  · intro obj hobj
    rw [put_eq, putCheck_ifAbsent s req hc, hobj]
    rfl

/-- Witness for C2 on `witnessStore`: both a fresh key and the occupied key. -/
theorem put_ifAbsent_semantics_witness :
    (assocGet witnessStore.data "k2" = none →
      witnessStore.put ⟨"k2", [1], some .IfAbsent, none⟩ =
        (.ok ⟨⟨toString (witnessStore.counter + 1)⟩⟩,
          ⟨assocInsert witnessStore.data "k2"
            ⟨[1], ⟨toString (witnessStore.counter + 1)⟩, (none : Option Metadata).getD metaNew⟩,
           witnessStore.counter + 1⟩)) ∧
    (∀ obj, assocGet witnessStore.data "k2" = some obj →
      witnessStore.put ⟨"k2", [1], some .IfAbsent, none⟩ =
        (.error (.ConditionFailed .IfAbsent), witnessStore)) :=
  put_ifAbsent_semantics witnessStore ⟨"k2", [1], some .IfAbsent, none⟩ rfl

/-- C9: `patch` with `IfAbsent` never succeeds and never changes state: it
fails with `NotFound` when no object exists (the existence check runs first)
and with `ConditionFailed{IfAbsent}` when one exists. -/
theorem patch_ifAbsent_never_succeeds (s : InMemoryStore) (req : PatchRequest)
    (hc : req.condition = some .IfAbsent) :
    (assocGet s.data req.key = none → s.patch req = (.error .NotFound, s)) ∧
    (∀ obj, assocGet s.data req.key = some obj →
      s.patch req = (.error (.ConditionFailed .IfAbsent), s)) := by
  constructor
  · intro habs
    exact patch_absent s req habs
  · intro obj hobj
    rw [patch_present s req obj hobj, hc]
    rfl

/-- Witness for C9 on `witnessStore` at the occupied key "k". -/
theorem patch_ifAbsent_never_succeeds_witness :
    (assocGet witnessStore.data "k" = none →
      witnessStore.patch ⟨"k", [], some .IfAbsent⟩ = (.error .NotFound, witnessStore)) ∧
    (∀ obj, assocGet witnessStore.data "k" = some obj →
      witnessStore.patch ⟨"k", [], some .IfAbsent⟩ =
        (.error (.ConditionFailed .IfAbsent), witnessStore)) :=
  patch_ifAbsent_never_succeeds witnessStore ⟨"k", [], some .IfAbsent⟩ rfl

/-- C1 counterexample: on the empty store, `patch` with
`IfVersionMatches("1")` fails with `NotFound`, not with
`ConditionFailed{IfVersionMatches("1")}` as the claim states for every
non-matching case. -/
theorem ifVersionMatches_notFound_counterexample :
    InMemoryStore.new.patch ⟨"k", [], some (.IfVersionMatches ⟨"1"⟩)⟩ =
      (.error .NotFound, InMemoryStore.new) ∧
    (Error.NotFound ≠ .ConditionFailed (.IfVersionMatches ⟨"1"⟩)) := by
  constructor
  · rfl
  · decide

/-- C1 (amended): `put`/`patch` with `IfVersionMatches(v)` succeed iff an
object exists whose current version is `v`; on a version mismatch both fail
with `ConditionFailed{IfVersionMatches(v)}` leaving the state unchanged, and
on an absent path `put` fails with `ConditionFailed{IfVersionMatches(v)}`
while `patch` fails with `NotFound` (its existence check precedes condition
evaluation), also leaving the state unchanged. -/
theorem put_patch_ifVersionMatches_semantics (s : InMemoryStore) (v : Version)
    (preq : PutRequest) (qreq : PatchRequest)
    (hpc : preq.condition = some (.IfVersionMatches v))
    (hqc : qreq.condition = some (.IfVersionMatches v)) :
    ((∀ obj, assocGet s.data preq.key = some obj → obj.version = v →
        ∃ r s', s.put preq = (.ok r, s')) ∧
     (∀ obj, assocGet s.data preq.key = some obj → obj.version ≠ v →
        s.put preq = (.error (.ConditionFailed (.IfVersionMatches v)), s)) ∧
     (assocGet s.data preq.key = none →
        s.put preq = (.error (.ConditionFailed (.IfVersionMatches v)), s))) ∧
    ((∀ obj, assocGet s.data qreq.key = some obj → obj.version = v →
        ∃ r s', s.patch qreq = (.ok r, s')) ∧
     (∀ obj, assocGet s.data qreq.key = some obj → obj.version ≠ v →
        s.patch qreq = (.error (.ConditionFailed (.IfVersionMatches v)), s)) ∧
     (assocGet s.data qreq.key = none →
        s.patch qreq = (.error .NotFound, s))) := by
  refine ⟨⟨?_, ?_, ?_⟩, ⟨?_, ?_, ?_⟩⟩
  · intro obj hobj hv
    rw [put_eq, putCheck_ifVersion_some s preq v obj hpc hobj, if_pos hv]
    exact ⟨_, _, rfl⟩
  · intro obj hobj hv
    rw [put_eq, putCheck_ifVersion_some s preq v obj hpc hobj, if_neg hv]
  · intro habs
    rw [put_eq, putCheck_ifVersion_none s preq v hpc habs]
  · intro obj hobj hv
    rw [patch_present s qreq obj hobj, hqc, patchCheck]
    rw [if_pos hv]
    exact ⟨_, _, rfl⟩
  · intro obj hobj hv
    rw [patch_present s qreq obj hobj, hqc, patchCheck]
    rw [if_neg hv]
  · intro habs
    exact patch_absent s qreq habs

/-- Witness for the amended C1 on `witnessStore` with expected version "1". -/
theorem put_patch_ifVersionMatches_semantics_witness :
    ((∀ obj, assocGet witnessStore.data "k" = some obj → obj.version = ⟨"1"⟩ →
        ∃ r s', witnessStore.put ⟨"k", [2], some (.IfVersionMatches ⟨"1"⟩), none⟩ = (.ok r, s')) ∧
     (∀ obj, assocGet witnessStore.data "k" = some obj → obj.version ≠ ⟨"1"⟩ →
        witnessStore.put ⟨"k", [2], some (.IfVersionMatches ⟨"1"⟩), none⟩ =
          (.error (.ConditionFailed (.IfVersionMatches ⟨"1"⟩)), witnessStore)) ∧
     (assocGet witnessStore.data "k" = none →
        witnessStore.put ⟨"k", [2], some (.IfVersionMatches ⟨"1"⟩), none⟩ =
          (.error (.ConditionFailed (.IfVersionMatches ⟨"1"⟩)), witnessStore))) ∧
    ((∀ obj, assocGet witnessStore.data "k" = some obj → obj.version = ⟨"1"⟩ →
        ∃ r s', witnessStore.patch ⟨"k", [], some (.IfVersionMatches ⟨"1"⟩)⟩ = (.ok r, s')) ∧
     (∀ obj, assocGet witnessStore.data "k" = some obj → obj.version ≠ ⟨"1"⟩ →
        witnessStore.patch ⟨"k", [], some (.IfVersionMatches ⟨"1"⟩)⟩ =
          (.error (.ConditionFailed (.IfVersionMatches ⟨"1"⟩)), witnessStore)) ∧
     (assocGet witnessStore.data "k" = none →
        witnessStore.patch ⟨"k", [], some (.IfVersionMatches ⟨"1"⟩)⟩ =
          (.error .NotFound, witnessStore))) :=
  put_patch_ifVersionMatches_semantics witnessStore ⟨"1"⟩
    ⟨"k", [2], some (.IfVersionMatches ⟨"1"⟩), none⟩
    ⟨"k", [], some (.IfVersionMatches ⟨"1"⟩)⟩ rfl rfl

/-- C4: `patch` on an absent path fails with `NotFound` (state unchanged);
an accepted `patch` leaves the byte payload exactly unchanged, replaces the
metadata wholly with the request's, mints a version distinct from the
object's prior one, and touches no other key. -/
theorem patch_frame_semantics (s : InMemoryStore) (req : PatchRequest)
    (hinv : storeInvB s = true) :
    (assocGet s.data req.key = none → s.patch req = (.error .NotFound, s)) ∧
    (∀ r s', s.patch req = (.ok r, s') →
      ∃ obj, assocGet s.data req.key = some obj ∧
        assocGet s'.data req.key = some ⟨obj.value, r.version, req.metadata⟩ ∧
        r.version ≠ obj.version ∧
        ∀ k, k ≠ req.key → assocGet s'.data k = assocGet s.data k) := by
  constructor
  · intro habs
    exact patch_absent s req habs
  · intro r s' h
    rcases patch_cases s req with ⟨e, he⟩ | ⟨obj, hobj, hok⟩
    · rw [he] at h
      exact absurd (congrArg Prod.fst h) (by simp)
    · rw [hok] at h
      have h1 : Except.ok (⟨⟨toString (s.counter + 1)⟩⟩ : PatchResponse) = .ok r :=
        congrArg Prod.fst h
      have hr : r = ⟨⟨toString (s.counter + 1)⟩⟩ := (Except.ok.inj h1).symm
      have hs' : s' =
          ⟨assocInsert s.data req.key ⟨obj.value, ⟨toString (s.counter + 1)⟩, req.metadata⟩,
           s.counter + 1⟩ :=
        (congrArg Prod.snd h).symm
      refine ⟨obj, hobj, ?_, ?_, ?_⟩
      · rw [hs', hr]
        exact assocGet_insert_self _ _ _
      · rw [hr]
        intro heq
        rcases storeInvB_spec hinv (req.key, obj) (assocGet_mem hobj) with ⟨n, hn, hver⟩
        have : (⟨⟨toString (s.counter + 1)⟩⟩ : PatchResponse).version = ⟨toString n⟩ := by
          rw [heq, hver]
        have := natToString_inj (congrArg Version.val this)
        omega
      · intro k hk
        rw [hs']
        exact assocGet_insert_ne _ _ _ _ hk

/-- Witness for C4 on `witnessStore` with an unconditional patch. -/
theorem patch_frame_semantics_witness :
    (assocGet witnessStore.data "k" = none →
      witnessStore.patch ⟨"k", [("c", "d")], none⟩ = (.error .NotFound, witnessStore)) ∧
    (∀ r s', witnessStore.patch ⟨"k", [("c", "d")], none⟩ = (.ok r, s') →
      ∃ obj, assocGet witnessStore.data "k" = some obj ∧
        assocGet s'.data "k" = some ⟨obj.value, r.version, [("c", "d")]⟩ ∧
        r.version ≠ obj.version ∧
        ∀ k, k ≠ "k" → assocGet s'.data k = assocGet witnessStore.data k) :=
  patch_frame_semantics witnessStore ⟨"k", [("c", "d")], none⟩ (by decide)

/-- C3: an accepted write (put or patch) on a store reached by replaying any
trace of writes from the empty store returns a version different from the
object's immediately prior version at that path and from every version
previously minted at that path. -/
theorem accepted_write_version_fresh (ops : List WriteOp) (w : WriteOp) (v : Version)
    (hacc : ((runFrom InMemoryStore.new ops).exec w).1 = .ok v) :
    (∀ obj, assocGet (runFrom InMemoryStore.new ops).data w.key = some obj →
      v ≠ obj.version) ∧
    v ∉ mintedFrom InMemoryStore.new ops w.key := by
  have hv := exec_ok_version _ w v hacc
  have hinv : storeInv (runFrom InMemoryStore.new ops) :=
    storeInv_runFrom ops InMemoryStore.new storeInv_new
  constructor
  · intro obj hobj heq
    rcases hinv (w.key, obj) (assocGet_mem hobj) with ⟨n, hn, hver⟩
    have : (⟨toString ((runFrom InMemoryStore.new ops).counter + 1)⟩ : Version) =
        ⟨toString n⟩ := by
      rw [← hv, heq, hver]
    have := natToString_inj (congrArg Version.val this)
    omega
  · intro hmem
    rcases mintedFrom_bound ops InMemoryStore.new w.key v hmem with ⟨n, hn, hver⟩
    have : (⟨toString ((runFrom InMemoryStore.new ops).counter + 1)⟩ : Version) =
        ⟨toString n⟩ := by
      rw [← hv, ← hver]
    have := natToString_inj (congrArg Version.val this)
    omega

/-! ### Lease lemmas -/

/-- The only error `get_expiry` produces is `InvalidMetadata`. -/
theorem get_expiry_error {m : Metadata} {e : LeaseError} (h : get_expiry m = .error e) :
    e = .InvalidMetadata "missing or invalid expiry" := by
  rw [get_expiry] at h
  cases ho : (metaGet m EXPIRY_HEADER).bind parseNat with
  | some x => rw [ho] at h; exact absurd h (by simp)
  | none => rw [ho] at h; exact (Except.error.inj h).symm

/-- The only error `get_owner` produces is `InvalidMetadata`. -/
theorem get_owner_error {m : Metadata} {e : LeaseError} (h : get_owner m = .error e) :
    e = .InvalidMetadata "missing owner" := by
  rw [get_owner] at h
  cases ho : metaGet m OWNER_HEADER with
  | some x => rw [ho] at h; exact absurd h (by simp)
  | none => rw [ho] at h; exact (Except.error.inj h).symm

theorem is_lease_alive_iff (e n : Nat) : is_lease_alive e n = true ↔ n < e := by
  simp [is_lease_alive]

/-- `acquire` when the `get` finds no object: unfolding of the fresh branch. -/
theorem acquire_fresh {T : Type} (dec : Bytes → Except String T)
    (enc : T → Except String Bytes) (now : Nat) (path owner : String) (ttl : Nat)
    (init : T) (sGet sPut : InMemoryStore)
    (hget : InMemoryStore.get sGet path = none) :
    acquireExecute dec enc now path owner ttl init sGet sPut =
      match enc init with
      | .error msg => (.error (.Serialization msg), sPut)
      | .ok value_bytes =>
        match InMemoryStore.put sPut
            ⟨path, value_bytes, some .IfAbsent, some (leaseMeta owner (now + ttl))⟩ with
        | (.error e, s₁) => (.error (.Storage e), s₁)
        | (.ok response, s₁) =>
          (.ok (⟨path, owner, ttl, response.version⟩, init), s₁) := by
  rw [acquireExecute, hget]

/-- `acquire` when the `get` finds an object: unfolding of the existing
branch. -/
theorem acquire_existing {T : Type} (dec : Bytes → Except String T)
    (enc : T → Except String Bytes) (now : Nat) (path owner : String) (ttl : Nat)
    (init : T) (sGet sPut : InMemoryStore) (resp : GetResponse)
    (hget : InMemoryStore.get sGet path = some resp) :
    acquireExecute dec enc now path owner ttl init sGet sPut =
      match get_expiry resp.metadata with
      | .error e => (.error e, sPut)
      | .ok expiry =>
        match get_owner resp.metadata with
        | .error e => (.error e, sPut)
        | .ok current_owner =>
          if is_lease_alive expiry now ∧ current_owner ≠ owner then
            (.error .LeaseHeld, sPut)
          else
            match dec resp.value with
            | .error msg => (.error (.Serialization msg), sPut)
            | .ok value =>
              match InMemoryStore.put sPut
                  ⟨path, resp.value, some (.IfVersionMatches resp.version),
                   some (leaseMeta owner (now + ttl))⟩ with
              | (.error _, s₁) => (.error .Conflict, s₁)
              | (.ok response, s₁) =>
                (.ok (⟨path, owner, ttl, response.version⟩, value), s₁) := by
  rw [acquireExecute, hget]

/-- `release` when the `get` finds an object. -/
theorem release_existing (path : String) (s : InMemoryStore) (resp : GetResponse)
    (hget : InMemoryStore.get s path = some resp) :
    releaseExecute path s =
      match InMemoryStore.put s
          ⟨path, resp.value, some (.IfVersionMatches resp.version), some releasedMeta⟩ with
      | (.error _, s₁) => (.error .Conflict, s₁)
      | (.ok _, s₁) => (.ok (), s₁) := by
  rw [releaseExecute, hget]

/-- Witness for C3: one prior put at "k", then an accepted overwrite. -/
theorem accepted_write_version_fresh_witness :
    (∀ obj,
      assocGet (runFrom InMemoryStore.new [.putOp ⟨"k", [1], none, none⟩]).data "k" =
        some obj →
      (⟨"2"⟩ : Version) ≠ obj.version) ∧
    (⟨"2"⟩ : Version) ∉ mintedFrom InMemoryStore.new [.putOp ⟨"k", [1], none, none⟩] "k" :=
  accepted_write_version_fresh [.putOp ⟨"k", [1], none, none⟩]
    (.putOp ⟨"k", [2], none, none⟩) ⟨"2"⟩ (by decide)

/-- C5: when the `get` of an acquire finds an object, the acquire fails with
`LeaseHeld` exactly when the stored metadata parses to an expiry and an owner
with `expiry > now` and `owner ≠ requester`; in every other existing-object
case (expired, same owner, or malformed lease metadata) the result is not
`LeaseHeld`. -/
theorem acquire_leaseHeld_iff {T : Type} (dec : Bytes → Except String T)
    (enc : T → Except String Bytes) (now : Nat) (path owner : String) (ttl : Nat)
    (init : T) (sGet sPut : InMemoryStore) (resp : GetResponse)
    (hget : InMemoryStore.get sGet path = some resp) :
    (acquireExecute dec enc now path owner ttl init sGet sPut).1 = .error .LeaseHeld ↔
      ∃ e o, get_expiry resp.metadata = .ok e ∧ get_owner resp.metadata = .ok o ∧
        now < e ∧ o ≠ owner := by
  rw [acquire_existing dec enc now path owner ttl init sGet sPut resp hget]
  split
  next e he =>
    have := get_expiry_error he
    subst this
    simp [he]
  next expiry he =>
    split
    next e ho =>
      have := get_owner_error ho
      subst this
      simp [he, ho]
    next current_owner ho =>
      split
      next hc =>
        constructor
        · intro _
          exact ⟨expiry, current_owner, he, ho, (is_lease_alive_iff _ _).mp hc.1, hc.2⟩
        · intro _
          rfl
      next hc =>
        constructor
        · intro hres
          exfalso
          split at hres
          · simp at hres
          · split at hres
            · simp at hres
            · simp at hres
        · rintro ⟨e', o', he', ho', hlt, hne⟩
          exfalso
          have hee : expiry = e' := Except.ok.inj (he.symm.trans he')
          have hoo : current_owner = o' := Except.ok.inj (ho.symm.trans ho')
          exact hc ⟨(is_lease_alive_iff _ _).mpr (hee ▸ hlt), hoo ▸ hne⟩

/-- Witness for C5: alive lease (now = 5 < expiry = 10) held by "alice",
requested by "bob". -/
theorem acquire_leaseHeld_iff_witness :
    (acquireExecute witDec witEnc 5 "k" "bob" 60 (0 : Nat) leaseStore leaseStore).1 =
        .error .LeaseHeld ↔
      ∃ e o, get_expiry [(OWNER_HEADER, "alice"), (EXPIRY_HEADER, "10")] = .ok e ∧
        get_owner [(OWNER_HEADER, "alice"), (EXPIRY_HEADER, "10")] = .ok o ∧
        5 < e ∧ o ≠ "bob" :=
  acquire_leaseHeld_iff witDec witEnc 5 "k" "bob" 60 0 leaseStore leaseStore
    ⟨[7], ⟨"1"⟩, [(OWNER_HEADER, "alice"), (EXPIRY_HEADER, "10")]⟩ (by decide)

/-- C6: when acquire finds an existing object whose lease is expired or
already owned by the requester, it deserializes the existing bytes and writes
those same bytes back via `put` with metadata `{owner, expiry = now + ttl}`
and condition `IfVersionMatches` of the version just read; a failed write is
mapped to `Conflict`, and a successful one returns the deserialized existing
value (the result does not depend on `init`) paired with a lease carrying the
newly minted version. -/
theorem acquire_takeover_puts_same_bytes {T : Type} (dec : Bytes → Except String T)
    (enc : T → Except String Bytes) (now : Nat) (path owner : String) (ttl : Nat)
    (init : T) (sGet sPut : InMemoryStore) (resp : GetResponse) (e : Nat) (o : String)
    (v : T) (hget : InMemoryStore.get sGet path = some resp)
    (he : get_expiry resp.metadata = .ok e) (ho : get_owner resp.metadata = .ok o)
    (hnot : ¬ (now < e ∧ o ≠ owner)) (hdec : dec resp.value = .ok v) :
    acquireExecute dec enc now path owner ttl init sGet sPut =
      match InMemoryStore.put sPut
          ⟨path, resp.value, some (.IfVersionMatches resp.version),
           some (leaseMeta owner (now + ttl))⟩ with
      | (.error _, s₁) => (.error .Conflict, s₁)
      | (.ok response, s₁) => (.ok (⟨path, owner, ttl, response.version⟩, v), s₁) := by
  rw [acquire_existing dec enc now path owner ttl init sGet sPut resp hget]
  simp only [he, ho, hdec]
  rw [if_neg]
  intro hc
  exact hnot ⟨(is_lease_alive_iff _ _).mp hc.1, hc.2⟩

/-- Witness for C6: expired lease (now = 50 > expiry = 10) taken over by
"bob"; the conditional put succeeds. -/
theorem acquire_takeover_puts_same_bytes_witness :
    acquireExecute witDec witEnc 50 "k" "bob" 60 (99 : Nat) leaseStore leaseStore =
      match InMemoryStore.put leaseStore
          ⟨"k", [7], some (.IfVersionMatches ⟨"1"⟩), some (leaseMeta "bob" (50 + 60))⟩ with
      | (.error _, s₁) => (.error .Conflict, s₁)
      | (.ok response, s₁) => (.ok (⟨"k", "bob", 60, response.version⟩, 7), s₁) :=
  acquire_takeover_puts_same_bytes witDec witEnc 50 "k" "bob" 60 99 leaseStore leaseStore
    ⟨[7], ⟨"1"⟩, [(OWNER_HEADER, "alice"), (EXPIRY_HEADER, "10")]⟩ 10 "alice" 7
    (by decide) (by decide) (by decide) (by decide) (by decide)

/-- C7 counterexample: an acquire whose `get` saw no object but whose
`put IfAbsent` runs against a store where the path has appeared (the lost
race) returns `Storage(ConditionFailed{IfAbsent})`, not `Conflict` as the
claim states. -/
theorem acquire_fresh_race_counterexample :
    (acquireExecute witDec witEnc 0 "k" "carol" 60 (7 : Nat)
        InMemoryStore.new leaseStore).1 =
      .error (.Storage (.ConditionFailed .IfAbsent)) ∧
    LeaseError.Storage (.ConditionFailed .IfAbsent) ≠ .Conflict := by
  constructor
  · rfl
  · decide

/-- C7 (amended): when acquire on a fresh path loses the race on its
`put IfAbsent`, the failed conditional write propagates through the `?`
operator as `LeaseError::Storage(ConditionFailed{IfAbsent})` — the storage
error wrapped unchanged — rather than being mapped to `Conflict`. -/
theorem acquire_fresh_race_storage_error {T : Type} (dec : Bytes → Except String T)
    (enc : T → Except String Bytes) (now : Nat) (path owner : String) (ttl : Nat)
    (init : T) (sGet sPut : InMemoryStore) (bytes : Bytes) (obj : StoredObject)
    (hget : InMemoryStore.get sGet path = none)
    (henc : enc init = .ok bytes)
    (hobj : assocGet sPut.data path = some obj) :
    acquireExecute dec enc now path owner ttl init sGet sPut =
      (.error (.Storage (.ConditionFailed .IfAbsent)), sPut) := by
  have hput : InMemoryStore.put sPut
      ⟨path, bytes, some .IfAbsent, some (leaseMeta owner (now + ttl))⟩ =
      (.error (.ConditionFailed .IfAbsent), sPut) := by
    rw [put_eq, putCheck_ifAbsent _ _ rfl, hobj]
    rfl
  rw [acquire_fresh dec enc now path owner ttl init sGet sPut hget]
  simp only [henc, hput]

/-- Witness for the amended C7: "dave" raced on a fresh view of "k" while
`leaseStore` already holds it. -/
theorem acquire_fresh_race_storage_error_witness :
    acquireExecute witDec witEnc 3 "k" "dave" 60 (7 : Nat) InMemoryStore.new leaseStore =
      (.error (.Storage (.ConditionFailed .IfAbsent)), leaseStore) :=
  acquire_fresh_race_storage_error witDec witEnc 3 "k" "dave" 60 7 InMemoryStore.new
    leaseStore [7] ⟨[7], ⟨"1"⟩, [(OWNER_HEADER, "alice"), (EXPIRY_HEADER, "10")]⟩
    rfl rfl (by decide)

/-- C10: the 412 branches of the GCS `put`/`patch` status dispatch build
`ConditionFailed` by unwrapping the request's optional condition: with a
condition present they return `ConditionFailed{condition}`, and with no
condition the unwrap panics (`none` in the model), so the branch is total
only when the request carried a condition. -/
theorem gcs_412_unwraps_condition :
    (∀ c g, gcsPutHandleStatus 412 (some c) g = some (.error (.ConditionFailed c))) ∧
    (∀ g, gcsPutHandleStatus 412 none g = none) ∧
    (∀ c g, gcsPatchHandleStatus 412 (some c) g = some (.error (.ConditionFailed c))) ∧
    (∀ g, gcsPatchHandleStatus 412 none g = none) := by
  refine ⟨fun c g => rfl, fun g => rfl, fun c g => rfl, fun g => rfl⟩

/-- C8: `release` performs a `get` and then a `put` of the same bytes back
with metadata `{owner = "", expiry = "0"}` under `IfVersionMatches` of the
version just read; consequently, after a successful release the object keeps
its bytes under the released metadata, and an acquire by any owner at any
wall-clock time succeeds immediately — without waiting for the original
expiry — returning the stored value. -/
theorem release_then_any_acquire {T : Type} (dec : Bytes → Except String T)
    (enc : T → Except String Bytes) (path : String) (s s' : InMemoryStore)
    (hrel : releaseExecute path s = (.ok (), s')) :
    ∃ obj vNew, assocGet s.data path = some obj ∧
      assocGet s'.data path = some ⟨obj.value, vNew, releasedMeta⟩ ∧
      ∀ (now ttl : Nat) (owner' : String) (init v : T), dec obj.value = .ok v →
        ∃ ls s'',
          acquireExecute dec enc now path owner' ttl init s' s' = (.ok (ls, v), s'') := by
  cases hobj : assocGet s.data path with
  | none =>
    exfalso
    have hget : InMemoryStore.get s path = none := by
      rw [InMemoryStore.get, hobj]; rfl
    rw [releaseExecute, hget] at hrel
    exact absurd (congrArg Prod.fst hrel) (by simp)
  | some obj =>
    have hget : InMemoryStore.get s path = some ⟨obj.value, obj.version, obj.metadata⟩ := by
      rw [InMemoryStore.get, hobj]; rfl
    have hput : InMemoryStore.put s
        ⟨path, obj.value, some (.IfVersionMatches obj.version), some releasedMeta⟩ =
        (.ok ⟨⟨toString (s.counter + 1)⟩⟩,
         ⟨assocInsert s.data path ⟨obj.value, ⟨toString (s.counter + 1)⟩, releasedMeta⟩,
          s.counter + 1⟩) := by
      rw [put_eq, putCheck_ifVersion_some s _ obj.version obj rfl hobj, if_pos rfl]
      rfl
    rw [release_existing path s ⟨obj.value, obj.version, obj.metadata⟩ hget] at hrel
    dsimp only at hrel
    rw [hput] at hrel
    have hs' : (⟨assocInsert s.data path
        ⟨obj.value, ⟨toString (s.counter + 1)⟩, releasedMeta⟩,
        s.counter + 1⟩ : InMemoryStore) = s' := congrArg Prod.snd hrel
    have hobj' : assocGet s'.data path =
        some ⟨obj.value, ⟨toString (s.counter + 1)⟩, releasedMeta⟩ := by
      rw [← hs']
      exact assocGet_insert_self _ _ _
    refine ⟨obj, ⟨toString (s.counter + 1)⟩, rfl, hobj', ?_⟩
    intro now ttl owner' init v hdecv
    have hget' : InMemoryStore.get s' path =
        some ⟨obj.value, ⟨toString (s.counter + 1)⟩, releasedMeta⟩ := by
      rw [InMemoryStore.get, hobj']; rfl
    rw [acquire_existing dec enc now path owner' ttl init s' s' _ hget']
    dsimp only
    have hexp : get_expiry releasedMeta = .ok 0 := by decide
    have hown : get_owner releasedMeta = .ok "" := by decide
    have hput2 : InMemoryStore.put s'
        ⟨path, obj.value, some (.IfVersionMatches ⟨toString (s.counter + 1)⟩),
         some (leaseMeta owner' (now + ttl))⟩ =
        (.ok ⟨⟨toString (s'.counter + 1)⟩⟩,
         ⟨assocInsert s'.data path
            ⟨obj.value, ⟨toString (s'.counter + 1)⟩, leaseMeta owner' (now + ttl)⟩,
          s'.counter + 1⟩) := by
      rw [put_eq,
        putCheck_ifVersion_some s' _ _ ⟨obj.value, ⟨toString (s.counter + 1)⟩, releasedMeta⟩
          rfl hobj', if_pos rfl]
      rfl
    have hcond : ¬ (is_lease_alive 0 now = true ∧ "" ≠ owner') := by
      intro hc
      have := (is_lease_alive_iff 0 now).mp hc.1
      omega
    simp only [hexp, hown, hdecv]
    rw [if_neg hcond, hput2]
    exact ⟨_, _, rfl⟩

/-- Witness for C8: releasing the alive lease of `leaseStore` and
re-acquiring. -/
theorem release_then_any_acquire_witness :
    ∃ obj vNew, assocGet leaseStore.data "k" = some obj ∧
      assocGet releasedStore.data "k" = some ⟨obj.value, vNew, releasedMeta⟩ ∧
      ∀ (now ttl : Nat) (owner' : String) (init v : Nat), witDec obj.value = .ok v →
        ∃ ls s'',
          acquireExecute witDec witEnc now "k" owner' ttl init releasedStore releasedStore =
            (.ok (ls, v), s'') :=
  release_then_any_acquire witDec witEnc "k" leaseStore releasedStore (by decide)

end Kanso
